import Mathlib

/-!
Verification of the patchable-document core of deathbeds/ypp (src/jason.py).

The development shallowly embeds the container/pointer/patch layer:
raw parsed values become an inductive `RawValue`; Python dicts become
association lists with Python dict-update semantics (overwrite in place,
insert at the end); the external jsonpointer / jsonpatch collaborators are
modelled from the spec's Pointer Resolver and Patch Engine contracts,
following the behavior of the libraries the source delegates to.
Operations of the `Object` mixin are modelled as functions that return both
the operation's result and the receiver's data after the call, so that the
spec's purity and in-place-mutation statements become provable equations.
-/

/-- A raw parsed value: mapping, sequence, string, or other scalar
(number, boolean, null).  Mappings are association lists in insertion
order, mirroring Python dicts. -/
inductive RawValue where
  | obj : List (String × RawValue) → RawValue
  | arr : List RawValue → RawValue
  | str : String → RawValue
  | int : Int → RawValue
  | bool : Bool → RawValue
  | null : RawValue
deriving Repr

/-- Error taxonomy of the core, one constructor per exception class that the
source (and the libraries it delegates to) can surface: JsonPointerException,
JsonPatchConflict, InvalidJsonPatch, TypeError, AttributeError, KeyError,
and the external validator's ValidationError. -/
inductive Err where
  | pointerErr : Err
  | patchConflict : Err
  | invalidPatch : Err
  | typeErr : Err
  | attrErr : Err
  | keyErr : Err
  | schemaErr : Err
deriving DecidableEq, Repr

/-- Python dict item assignment `d[k] = v` on an association list:
overwrite the value at the first (by the no-duplicate invariant, only)
occurrence of `k` in place, or append a new entry at the end. -/
def updKey : List (String × RawValue) → String → RawValue → List (String × RawValue)
  | [], k, v => [(k, v)]
  | (k', v') :: rest, k, v =>
      if k' = k then (k, v) :: rest else (k', v') :: updKey rest k v

/-- Python dict lookup `d[k]` (as an Option). -/
def lookupKey : List (String × RawValue) → String → Option RawValue
  | [], _ => none
  | (k', v') :: rest, k => if k' = k then some v' else lookupKey rest k

/-- Python `del d[k]`: remove the entry, or fail (KeyError) if absent. -/
def delKey : List (String × RawValue) → String → Option (List (String × RawValue))
  | [], _ => none
  | (k', v') :: rest, k =>
      if k' = k then some rest else (delKey rest k).map ((k', v') :: ·)

/-- Insert into a list at an index (callers check the bound `i ≤ length`). -/
def listInsertAt : List RawValue → Nat → RawValue → List RawValue
  | xs, 0, v => v :: xs
  | [], _ + 1, v => [v]
  | x :: xs, n + 1, v => x :: listInsertAt xs n v

/-- Overwrite the element at an index (callers check `i < length`). -/
def listSetAt : List RawValue → Nat → RawValue → List RawValue
  | [], _, _ => []
  | _ :: xs, 0, v => v :: xs
  | x :: xs, n + 1, v => x :: listSetAt xs n v

/-- Delete the element at an index (callers check `i < length`). -/
def listRemoveAt : List RawValue → Nat → List RawValue
  | [], _ => []
  | _ :: xs, 0 => xs
  | x :: xs, n + 1 => x :: listRemoveAt xs n

/-- JSON-Pointer escaping of one reference token, used when a pointer string
is assembled from raw keys: each tilde becomes tilde-zero and each slash
becomes tilde-one. -/
def escChars : List Char → List Char
  | [] => []
  | c :: rest =>
      if c = '~' then '~' :: '0' :: escChars rest
      else if c = '/' then '~' :: '1' :: escChars rest
      else c :: escChars rest

/-- First unescaping pass of jsonpointer: leftmost non-overlapping
replacement of tilde-one by slash, the semantics of Python str.replace. -/
def unescPass1 : List Char → List Char
  | [] => []
  | [c] => [c]
  | c :: d :: rest =>
      if c = '~' ∧ d = '1' then '/' :: unescPass1 rest
      else c :: unescPass1 (d :: rest)

/-- Second unescaping pass of jsonpointer: leftmost non-overlapping
replacement of tilde-zero by tilde. -/
def unescPass2 : List Char → List Char
  | [] => []
  | [c] => [c]
  | c :: d :: rest =>
      if c = '~' ∧ d = '0' then '~' :: unescPass2 rest
      else c :: unescPass2 (d :: rest)

/-- jsonpointer's unescape of one reference token:
part.replace(tilde-one, slash).replace(tilde-zero, tilde). -/
def unescChars (cs : List Char) : List Char := unescPass2 (unescPass1 cs)

/-- The intermediate shape after the first unescape pass of an escaped
token: tildes still doubled as tilde-zero, slashes restored. -/
def escTilde : List Char → List Char
  | [] => []
  | c :: rest => if c = '~' then '~' :: '0' :: escTilde rest else c :: escTilde rest

/-- Python str.split on the slash character (keeping empty parts). -/
def splitSlash : List Char → List (List Char)
  | [] => [[]]
  | c :: rest =>
      if c = '/' then [] :: splitSlash rest
      else
        match splitSlash rest with
        | part :: parts => (c :: part) :: parts
        | [] => [[c]]

/-- The string starts with a slash: the test `object.startswith("/")` that
selects the pointer branch of item access and item assignment. -/
def pathIsPointer (s : String) : Bool :=
  match s.data with
  | '/' :: _ => true
  | _ => false

/-- jsonpointer's array-index syntax, the anchored regular expression
zero-or-nonzero-leading-digits: no leading zeros, decimal only. -/
def parseIndex : List Char → Option Nat
  | [] => none
  | ['0'] => some 0
  | c :: rest =>
      if ('1' ≤ c ∧ c ≤ '9') ∧ rest.all (fun d => '0' ≤ d ∧ d ≤ '9') then
        some ((c :: rest).foldl (fun n d => n * 10 + (d.toNat - 48)) 0)
      else none

/-- Modelled from the spec: the Pointer Resolver's parse step (external
jsonpointer collaborator, section 4.1).  Split the pointer on slashes,
require the leading part to be empty (the pointer starts with a slash, or
is the empty whole-document pointer), unescape each remaining token. -/
def parsePointer (p : String) : Except Err (List String) :=
  match splitSlash p.data with
  | [] :: parts => .ok (parts.map (fun cs => String.mk (unescChars cs)))
  | _ => .error .pointerErr

/-- Modelled from the spec: one descent step of the Pointer Resolver
(section 4.1): mappings are indexed by key, sequences and strings by a
canonical decimal index.  The dash token denotes jsonpointer's end-of-list
sentinel, which no operation of this development observes; it is modelled
as a resolution failure. -/
def walkStep : RawValue → String → Except Err RawValue
  | .obj es, k =>
      match lookupKey es k with
      | some v => .ok v
      | none => .error .pointerErr
  | .arr xs, k =>
      if k = "-" then .error .pointerErr
      else
        match parseIndex k.data with
        | some i =>
            if h : i < xs.length then .ok (xs.get ⟨i, h⟩) else .error .pointerErr
        | none => .error .pointerErr
  | .str s, k =>
      if k = "-" then .error .pointerErr
      else
        match parseIndex k.data with
        | some i =>
            if h : i < s.data.length then .ok (.str (String.mk [s.data.get ⟨i, h⟩]))
            else .error .pointerErr
        | none => .error .pointerErr
  | _, _ => .error .pointerErr

/-- Modelled from the spec: full pointer resolution (section 4.1), the
resolve_pointer entry point the source delegates to in item access. -/
def resolvePointer (doc : RawValue) (p : String) : Except Err RawValue := do
  let parts ← parsePointer p
  parts.foldlM walkStep doc

/-- One RFC-6902-style patch operation exactly as the source constructs it:
an `op` name, a pointer `path`, and an optional `value` member (`none`
models the Python dict literal omitting the value key). -/
structure PatchOp where
  op : String
  path : String
  value : Option RawValue
deriving Repr

/-- The action to perform at the last reference token of an operation's
path, after the Patch Engine has descended to the parent container. -/
inductive LastAct where
  | addA : RawValue → LastAct
  | replaceA : RawValue → LastAct
  | removeA : LastAct

/-- Modelled from the spec: the Patch Engine's action on the parent
container at the final reference token (external jsonpatch collaborator,
sections 3 and 7): add inserts or overwrites a mapping key, appends on the
dash token, and inserts at an index at most the length; replace and remove
require the addressed key or index to exist; a non-index token against a
sequence is a pointer failure, and a scalar parent is a type error. -/
def applyAtLast (doc : RawValue) (p : String) (act : LastAct) : Except Err RawValue :=
  match act with
  | .addA v =>
      match doc with
      | .obj es => .ok (.obj (updKey es p v))
      | .arr xs =>
          if p = "-" then .ok (.arr (xs ++ [v]))
          else
            match parseIndex p.data with
            | some i => if i ≤ xs.length then .ok (.arr (listInsertAt xs i v)) else .error .patchConflict
            | none => .error .pointerErr
      | _ => .error .typeErr
  | .replaceA v =>
      match doc with
      | .obj es =>
          match lookupKey es p with
          | some _ => .ok (.obj (updKey es p v))
          | none => .error .patchConflict
      | .arr xs =>
          if p = "-" then .error .typeErr
          else
            match parseIndex p.data with
            | some i => if i < xs.length then .ok (.arr (listSetAt xs i v)) else .error .patchConflict
            | none => .error .pointerErr
      | _ => .error .typeErr
  | .removeA =>
      match doc with
      | .obj es =>
          match delKey es p with
          | some es' => .ok (.obj es')
          | none => .error .patchConflict
      | .arr xs =>
          if p = "-" then .error .typeErr
          else
            match parseIndex p.data with
            | some i => if i < xs.length then .ok (.arr (listRemoveAt xs i)) else .error .patchConflict
            | none => .error .pointerErr
      | _ => .error .typeErr

/-- Replace the immediate child addressed by one reference token with a new
value, rebuilding the parent: the pure rendering of jsonpatch's in-place
mutation of the walked parent object. -/
def setChild (doc : RawValue) (p : String) (sub : RawValue) : Except Err RawValue :=
  match doc with
  | .obj es => .ok (.obj (updKey es p sub))
  | .arr xs =>
      match parseIndex p.data with
      | some i => if i < xs.length then .ok (.arr (listSetAt xs i sub)) else .error .pointerErr
      | none => .error .pointerErr
  | _ => .error .typeErr

/-- Modelled from the spec: one operation applied at a parsed pointer path
(jsonpatch's to_last walk followed by the operation's action).  An empty
path addresses the whole document: add and replace yield the operand value,
remove fails. -/
def opAtPath (doc : RawValue) (parts : List String) (act : LastAct) : Except Err RawValue :=
  match parts with
  | [] =>
      match act with
      | .addA v => .ok v
      | .replaceA v => .ok v
      | .removeA => .error .patchConflict
  | [p] => applyAtLast doc p act
  | p :: rest => do
      let sub ← walkStep doc p
      let sub' ← opAtPath sub rest act
      setChild doc p sub'

/-- Modelled from the spec: apply one already-validated operation.  Add and
replace read the `value` member first and fail with InvalidJsonPatch when
it is absent, before the path is examined, exactly as jsonpatch's apply
step does. -/
def applyOp (doc : RawValue) (o : PatchOp) (parts : List String) : Except Err RawValue :=
  if o.op = "add" then
    match o.value with
    | none => .error .invalidPatch
    | some v => opAtPath doc parts (.addA v)
  else if o.op = "replace" then
    match o.value with
    | none => .error .invalidPatch
    | some v => opAtPath doc parts (.replaceA v)
  else if o.op = "remove" then
    opAtPath doc parts .removeA
  else .error .invalidPatch

/-- Modelled from the spec: the Patch Engine's apply entry point (external
jsonpatch collaborator).  First every operation's name is checked and its
path parsed (jsonpatch builds all operation objects before applying), then
the operations are applied strictly in sequence order, each seeing the
result of the previous one; the input document itself is deep-copied by
the library, so the caller's value is never mutated. -/
def applyPatch (doc : RawValue) (ops : List PatchOp) : Except Err RawValue := do
  let parsed ← ops.mapM (fun o =>
      if o.op = "add" ∨ o.op = "remove" ∨ o.op = "replace" then
        (parsePointer o.path).map (fun parts => (o, parts))
      else .error .invalidPatch)
  parsed.foldlM (fun d op => applyOp d op.1 op.2) doc

/-- Construction of the underlying data of a mapping node.  `UserDict`
initialisation copies the source mapping entry by entry through item
assignment, and `Object.__setitem__` (src/jason.py lines 150-153)
intercepts keys that start with a slash: for such a key it builds and
applies a single-operation add patch against the data built so far and
discards the patched result, so the key is never stored and any patch
failure propagates.  (The source also re-dispatches the discarded patched
result; that re-dispatch can only raise on mappings whose keys unescape to
further slash-prefixed keys, a corner no other behavior depends on, and is
elided here.)  Keys without a leading slash are stored normally. -/
def dictInit : List (String × RawValue) → List (String × RawValue) →
    Except Err (List (String × RawValue))
  | acc, [] => .ok acc
  | acc, (k, v) :: rest =>
      if pathIsPointer k then
        match applyPatch (.obj acc) [⟨"add", k, some v⟩] with
        | .ok _ => dictInit acc rest
        | .error e => .error e
      else dictInit (updKey acc k v) rest

/-- A dispatched node: the typed container wrappers of the source.  `dictN`
is the mapping node (D), `listN` the sequence node (L), `strN` the scalar
string node (S); every other raw value passes through dispatch unchanged
and is kept as `plain`. -/
inductive Node where
  | dictN : List (String × RawValue) → Node
  | listN : List RawValue → Node
  | strN : String → Node
  | plain : RawValue → Node
deriving Repr

/-- The node's underlying data.  For wrapped containers this is the stored
raw value; a passthrough scalar is its own data (the source's get_data
returns any value without a data attribute unchanged). -/
def Node.data : Node → RawValue
  | .dictN es => .obj es
  | .listN xs => .arr xs
  | .strN s => .str s
  | .plain v => v

/-- The Dispatch Facade `Jay.load` (src/jason.py lines 46-55): unwrap to a
plain raw value (our raw values are already plain), then classify mappings
into mapping nodes, sequences into sequence nodes, strings into scalar
nodes, and return anything else unchanged.  Mapping construction goes
through `dictInit` and can therefore fail on slash-prefixed keys. -/
def jayLoad : RawValue → Except Err Node
  | .obj es => (dictInit [] es).map Node.dictN
  | .arr xs => .ok (.listN xs)
  | .str s => .ok (.strN s)
  | v => .ok (.plain v)

/-- The right-hand operand accepted by the patch operators of `Object`:
an already-built Patch (used directly, the op argument ignored), a mapping
of path to value, or a plain collection of pointer paths. -/
inductive AddOperand where
  | patchOps : List PatchOp → AddOperand
  | mapping : List (String × RawValue) → AddOperand
  | paths : List String → AddOperand

/-- The operation list `Object.__add__` builds (src/jason.py lines
110-125): one operation per entry, with the given op name; the `value`
member is omitted exactly when the op is "replace", otherwise it is the
mapping entry's value, or an empty-string placeholder for a bare path
collection (`zip(object, [""] * len(object))`). -/
def buildOps (op : String) : AddOperand → List PatchOp
  | .patchOps ops => ops
  | .mapping kvs => kvs.map (fun kv => ⟨op, kv.1, if op = "replace" then none else some kv.2⟩)
  | .paths ps => ps.map (fun p => ⟨op, p, if op = "replace" then none else some (.str "")⟩)

/-- The operator `Object.__add__` (src/jason.py lines 110-126): build the patch unless
one was given, apply it to the node's data, and dispatch the result.  The
second component is the receiver's data after the call: the patch library
deep-copies its input, so the receiver is not mutated. -/
def Object.add (self : RawValue) (operand : AddOperand) (op : String) :
    Except Err Node × RawValue :=
  ((applyPatch self (buildOps op operand)).bind jayLoad, self)

/-- The operators `Object.__floordiv__` and `__truediv__` (src/jason.py lines 128, 139):
patch-add with op "replace". -/
def Object.floordiv (self : RawValue) (operand : AddOperand) : Except Err Node × RawValue :=
  Object.add self operand "replace"

/-- The operator `Object.__sub__` (src/jason.py line 130): patch-add with op "remove". -/
def Object.sub (self : RawValue) (operand : AddOperand) : Except Err Node × RawValue :=
  Object.add self operand "remove"

/-- The result of item access: the pointer branch re-dispatches the
resolved value through the Dispatch Facade, the ordinary branch returns the
raw stored value undispatched. -/
inductive GetItemResult where
  | dispatched : Node → GetItemResult
  | plainItem : RawValue → GetItemResult
deriving Repr

/-- Item access `Object.__getitem__` (src/jason.py lines 105-108): a string key that
starts with a slash is resolved as a pointer against the node's data and
the result is dispatched; any other key is ordinary item access on the
data (a mapping lookup, failing with KeyError when absent; string keys are
type errors against sequences and scalar strings). -/
def Object.getitem (self : RawValue) (key : String) : Except Err GetItemResult × RawValue :=
  (if pathIsPointer key then
      (resolvePointer self key).bind (fun v => (jayLoad v).map .dispatched)
    else
      match self with
      | .obj es =>
          match lookupKey es key with
          | some v => .ok (.plainItem v)
          | none => .error .keyErr
      | _ => .error .typeErr,
    self)

/-- Context registration `Object.__and__` (src/jason.py lines 135-137): update the node's own
mapping with an `"@context"` entry in place and return the node itself.
The second component is the receiver's data after the call — here the
updated mapping, the one deliberately mutating operation.  On a node whose
data is not a mapping the update attribute is missing (AttributeError). -/
def Object.andOp (self : RawValue) (rhs : RawValue) : Except Err Node × RawValue :=
  match self with
  | .obj es =>
      let es' := updKey es "@context" rhs
      (.ok (.dictN es'), .obj es')
  | v => (.error .attrErr, v)

/-- The context value `Context.__matmul__` injects into a document:
`Context.data.get("@context", Context.data)` — the context mapping's own
`"@context"` entry if it has one, otherwise the whole context mapping. -/
def contextValue (ctxData : List (String × RawValue)) : RawValue :=
  (lookupKey ctxData "@context").getD (.obj ctxData)

/-- The result of context expansion: a full document expands to a sequence
node, a plain string term expands to a plain string. -/
inductive MatmulResult where
  | docRes : Node → MatmulResult
  | termRes : String → MatmulResult

/-- Term expansion `Context.expand` (src/jason.py lines 278-288), parameterised by the
external linked-data expander: expand the singleton document mapping the
term to the empty string under the context; the expansion's first key if
there is one, otherwise the term unchanged. -/
def contextExpandTerm (expandFn : RawValue → List RawValue)
    (term : String) (ctxData : List (String × RawValue)) : String :=
  match expandFn (.obj [(term, .str ""), ("@context", .obj ctxData)]) with
  | .obj ((k, _) :: _) :: _ => k
  | _ => term

/-- Document expansion: `Object.__matmul__` composed with `Context.__matmul__` (src/jason.py
lines 141-142 and 270-274), parameterised by the external linked-data
expander.  The right-hand operand is first made into a Context node (a
mapping construction, subject to `dictInit`).  A scalar string receiver is
expanded as a term.  A mapping receiver is mutated in place: the document
passed to the expander is the receiver's own data, into which the
`"@context"` entry is inserted by `object.update(...)` before expansion;
the expansion result is wrapped as a sequence node.  Receivers without an
update method (sequences, plain scalars) fail with AttributeError. -/
def Object.matmul (expandFn : RawValue → List RawValue)
    (self : RawValue) (ctx : List (String × RawValue)) :
    Except Err MatmulResult × RawValue :=
  match dictInit [] ctx with
  | .error e => (.error e, self)
  | .ok ctxData =>
      match self with
      | .str s => (.ok (.termRes (contextExpandTerm expandFn s ctxData)), .str s)
      | .obj es =>
          let es' := updKey es "@context" (contextValue ctxData)
          (.ok (.docRes (.listN (expandFn (.obj es')))), .obj es')
      | v => (.error .attrErr, v)

/-- Structural diff `Object.__or__` (src/jason.py lines 132-133), parameterised by the
external diff engine: the delta between the node's data and the right-hand
value, treated as opaque.  Pure. -/
def Object.orOp (diffFn : RawValue → RawValue → RawValue)
    (self : RawValue) (rhs : RawValue) : RawValue × RawValue :=
  (diffFn self rhs, self)

/-- Compaction: `Object.__mod__` composed with `Context.__mod__` (src/jason.py lines
144-145 and 267-268), parameterised by the external linked-data compactor,
which returns a mapping; the compacted mapping is wrapped as a mapping
node (another `dictInit` construction). -/
def Object.modOp (compactFn : RawValue → RawValue → List (String × RawValue))
    (self : RawValue) (ctx : List (String × RawValue)) :
    Except Err Node × RawValue :=
  ((dictInit [] ctx).bind (fun ctxData =>
      (dictInit [] (compactFn self (.obj ctxData))).map Node.dictN),
    self)

/-- Schema application: `Object.__call__` composed with `Schema.__call__` (src/jason.py lines
147-148 and 254-256), parameterised by the external schema validator: make
the operand into a Schema node, ask the validator, and on acceptance
return the node's data unchanged; a rejection propagates uncaught. -/
def Object.callOp (validateFn : RawValue → RawValue → Except Err Unit)
    (self : RawValue) (schema : List (String × RawValue)) :
    Except Err RawValue × RawValue :=
  ((dictInit [] schema).bind (fun sd =>
      (validateFn self (.obj sd)).map (fun _ => self)),
    self)

/-- The value of the `__setitem__` method body, before assignment-statement
semantics discard it: the patched node for a pointer path, or a unit for
an ordinary assignment. -/
inductive SetItemResult where
  | patched : Node → SetItemResult
  | assigned : SetItemResult

/-- Item assignment `Object.__setitem__` (src/jason.py lines 150-153): a path that starts
with a slash builds and applies a single-entry add patch against the
node's data and returns the patched result — which Python's assignment
statement then discards, so the receiver keeps its data (second
component).  Any other path is ordinary item assignment, which does mutate
a mapping receiver (and is a type error on sequence or string nodes, whose
item assignment rejects string keys). -/
def Object.setitem (self : RawValue) (path : String) (v : RawValue) :
    Except Err SetItemResult × RawValue :=
  if pathIsPointer path then
    ((Object.add self (.mapping [(path, v)]) "add").1.map .patched, self)
  else
    match self with
    | .obj es => (.ok .assigned, .obj (updKey es path v))
    | w => (.error .typeErr, w)

/-- A heap-level value, used to reason about sharing of mutable raw data
between containers: mutable containers (Python dicts and lists) live in
heap cells and are referred to by address, immutable scalars are inline. -/
inductive HVal where
  | href : Nat → HVal
  | hstr : String → HVal
  | hint : Int → HVal
  | hbool : Bool → HVal
  | hnull : HVal
deriving DecidableEq, Repr

/-- A heap cell: one mutable Python container object. -/
inductive HCell where
  | hdict : List (String × HVal) → HCell
  | hlist : List HVal → HCell
deriving DecidableEq, Repr

/-- A heap: an address-to-cell store and the next fresh address.  Every
allocated address is below `next`. -/
structure Heap where
  cells : List (Nat × HCell)
  next : Nat
deriving DecidableEq, Repr

/-- Look up the cell at an address. -/
def cellAt (h : Heap) (a : Nat) : Option HCell :=
  (h.cells.find? (fun p => p.1 = a)).map Prod.snd

/-- Allocate a fresh cell. -/
def allocCell (h : Heap) (c : HCell) : Nat × Heap :=
  (h.next, ⟨h.cells ++ [(h.next, c)], h.next + 1⟩)

/-- Python dict item assignment at the heap level. -/
def updKeyH : List (String × HVal) → String → HVal → List (String × HVal)
  | [], k, v => [(k, v)]
  | (k', v') :: rest, k, v =>
      if k' = k then (k, v) :: rest else (k', v') :: updKeyH rest k v

/-- Deep copy `Dict.__deepcopy__` (src/jason.py lines 239-240) at the heap level:
`type(D)(D.data)` rebuilds a mapping node from the node's data, and
`UserDict` initialisation copies the mapping entry by entry — a fresh
top-level dict cell whose entries still hold the same references as the
original's (for mappings whose top-level keys do not start with a slash,
which every constructed mapping node satisfies). -/
def dictShallowCopy (h : Heap) (a : Nat) : Except Err (Nat × Heap) :=
  match cellAt h a with
  | some (.hdict es) => .ok (allocCell h (.hdict es))
  | _ => .error .typeErr

/-- Context registration applied to one dict cell: insert or overwrite the
`"@context"` entry (non-dict cells have no update method and are never
targeted by the theorems below). -/
def setCtxCell : HCell → HVal → HCell
  | .hdict es, rhs => .hdict (updKeyH es "@context" rhs)
  | c, _ => c

/-- Context registration `Object.__and__` at the heap level: mutate exactly the receiver's own
cell by inserting the `"@context"` entry. -/
def updateCtxH (h : Heap) (a : Nat) (rhs : HVal) : Heap :=
  ⟨h.cells.map (fun p => if p.1 = a then (p.1, setCtxCell p.2 rhs) else p), h.next⟩

/-- Addresses of the mutable containers reachable from a heap value, with
a recursion-depth budget (the concrete heaps below are acyclic and
shallow, so a small budget is exact). -/
def reachAddrs : Nat → Heap → HVal → List Nat
  | 0, _, _ => []
  | fuel + 1, h, v =>
      match v with
      | .href a =>
          a :: (match cellAt h a with
            | some (.hdict es) => (es.map Prod.snd).foldr (fun w acc => reachAddrs fuel h w ++ acc) []
            | some (.hlist vs) => vs.foldr (fun w acc => reachAddrs fuel h w ++ acc) []
            | none => [])
      | _ => []

/-- The sub-value of a raw value at a segment path obtained by walking its
own structure: mapping keys, and canonical decimal indices into sequences
and strings (a one-character string results from indexing a string, as in
Python).  This is the specification-side notion of a valid pointer, to be
compared with the resolver. -/
def subAt : RawValue → List String → Option RawValue
  | v, [] => some v
  | .obj es, k :: rest => (lookupKey es k).bind (fun v => subAt v rest)
  | .arr xs, k :: rest =>
      if k = "-" then none
      else
        match parseIndex k.data with
        | some i => if h : i < xs.length then subAt (xs.get ⟨i, h⟩) rest else none
        | none => none
  | .str s, k :: rest =>
      if k = "-" then none
      else
        match parseIndex k.data with
        | some i =>
            if h : i < s.data.length then subAt (.str (String.mk [s.data.get ⟨i, h⟩])) rest
            else none
        | none => none
  | _, _ :: _ => none

/-- Assemble the pointer string that addresses a segment path: a slash
before each escaped reference token. -/
def toPointer (segs : List String) : String :=
  String.mk ((segs.map (fun s => '/' :: escChars s.data)).flatten)

/-- A trivial instantiation of the external linked-data expander, used to
exhibit facts that hold for every expander at a concrete input. -/
def trivialExpand : RawValue → List RawValue := fun _ => []

/-- A trivial instantiation of the external diff engine. -/
def trivialDiff : RawValue → RawValue → RawValue := fun _ _ => .null

/-- A trivial instantiation of the external linked-data compactor. -/
def trivialCompact : RawValue → RawValue → List (String × RawValue) := fun _ _ => []

/-- Modelled from the spec: the external JSON-Schema validation capability
(sections 4.4 and 6), restricted to the `type` keyword with the `string`
discriminator — enough for the spec's own examples.  Accepts when the
schema has no handled constraint, rejects a non-string when the schema
demands a string. -/
def typeValidate (v schema : RawValue) : Except Err Unit :=
  match schema with
  | .obj es =>
      match lookupKey es "type" with
      | some (.str "string") =>
          match v with
          | .str _ => .ok ()
          | _ => .error .schemaErr
      | _ => .ok ()
  | _ => .ok ()

theorem lookupKey_updKey_self (es : List (String × RawValue)) (k : String) (v : RawValue) :
    lookupKey (updKey es k v) k = some v := by
  induction es with
  | nil => simp [updKey, lookupKey]
  | cons kv rest ih =>
      obtain ⟨a, b⟩ := kv
      by_cases h : a = k
      · simp [updKey, h, lookupKey]
      · simp [updKey, h, lookupKey, ih]

theorem lookupKey_updKey_ne (es : List (String × RawValue)) (k q : String) (v : RawValue)
    (h : q ≠ k) :
    lookupKey (updKey es k v) q = lookupKey es q := by
  induction es with
  | nil => simp [updKey, lookupKey, Ne.symm h]
  | cons kv rest ih =>
      obtain ⟨a, b⟩ := kv
      by_cases ha : a = k
      · subst ha
        simp [updKey, lookupKey, Ne.symm h]
      · by_cases hq : a = q
        · simp [updKey, ha, lookupKey, hq, h]
        · simp [updKey, ha, lookupKey, hq, ih]

/-- Claim C1.  The slip is on src/jason.py line 117: the operation dict
omits the `value` member exactly when op is "replace", so every built
replace operation is rejected by the patch library's value check before
the path is even examined: the floordiv and truediv operators can never
succeed, against both the spec and RFC 6902 (replace requires a value,
remove does not — the source has the two swapped).  Evaluating the code at
the claim's own input: the replace of an existing path fails with
InvalidJsonPatch instead of yielding the overwritten mapping, and the
replace of a missing path fails with InvalidJsonPatch rather than the
claimed PatchApplicationError. -/
theorem claim1_replace_drops_value :
    buildOps "replace" (.mapping [("/a", RawValue.int 9)]) = [⟨"replace", "/a", none⟩]
    ∧ (Object.floordiv (.obj [("a", RawValue.int 1)]) (.mapping [("/a", RawValue.int 9)])).1
        = .error .invalidPatch
    ∧ (Object.floordiv (.obj [("a", RawValue.int 1)]) (.mapping [("/b", RawValue.int 9)])).1
        = .error .invalidPatch
    ∧ applyPatch (.obj [("a", RawValue.int 1)]) [⟨"replace", "/a", some (RawValue.int 9)⟩]
        = .ok (.obj [("a", RawValue.int 9)]) :=
  ⟨rfl, rfl, rfl, rfl⟩

/-- Claim C2: patch-add on the mapping node with data (a maps to 1) and the
operand mapping (pointer /b maps to 2) yields a mapping node whose data
adds the entry (b maps to 2); the receiver's data after the call is
unchanged; and pointer-reading /b on the result dispatches the plain
scalar 2. -/
theorem claim2_patch_add_pointer_read :
    Object.add (.obj [("a", RawValue.int 1)]) (.mapping [("/b", RawValue.int 2)]) "add"
      = (.ok (.dictN [("a", RawValue.int 1), ("b", RawValue.int 2)]), .obj [("a", RawValue.int 1)])
    ∧ (Node.dictN [("a", RawValue.int 1), ("b", RawValue.int 2)]).data
      = .obj [("a", RawValue.int 1), ("b", RawValue.int 2)]
    ∧ (Object.getitem (.obj [("a", RawValue.int 1), ("b", RawValue.int 2)]) "/b").1
      = .ok (.dispatched (.plain (.int 2))) :=
  ⟨rfl, rfl, rfl⟩

/-- Claim C3, counterexample: the remove operation built from the path
collection containing pointer /a/1 carries an empty-string placeholder
`value` member (src/jason.py lines 117 and 122: the value is omitted only
for op "replace"), so the claim's parenthesis that the value field is
omitted for remove is false of the code. -/
theorem claim3_remove_value_not_omitted :
    buildOps "remove" (.paths ["/a/1"]) = [⟨"remove", "/a/1", some (.str "")⟩]
    ∧ buildOps "remove" (.paths ["/a/1"]) ≠ [⟨"remove", "/a/1", none⟩] := by
  refine ⟨rfl, ?_⟩
  intro h
  rw [show buildOps "remove" (.paths ["/a/1"]) = [⟨"remove", "/a/1", some (.str "")⟩] from rfl] at h
  simp at h

/-- Claim C3, amended: patch-remove builds remove operations that carry an
empty-string placeholder value member (which patch application ignores);
on the node with data (a maps to the sequence 1, 2, 3), subtracting the
path collection containing /a/1 yields the mapping (a maps to 1, 3), the
receiver unchanged. -/
theorem claim3_remove_amended :
    Object.sub (.obj [("a", RawValue.arr [.int 1, .int 2, .int 3])]) (.paths ["/a/1"])
      = (.ok (.dictN [("a", RawValue.arr [.int 1, .int 3])]),
         .obj [("a", RawValue.arr [.int 1, .int 2, .int 3])])
    ∧ buildOps "remove" (.paths ["/a/1"]) = [⟨"remove", "/a/1", some (.str "")⟩] :=
  ⟨rfl, rfl⟩

/-- Claim C5: context registration on a mapping node overwrites exactly the
`"@context"` entry of the node's own data in place (the second component,
the receiver's data after the call, is the updated mapping), returns the
node carrying that same updated data, and leaves the binding of every
other key unchanged. -/
theorem claim5_context_registration (es : List (String × RawValue)) (rhs : RawValue)
    (q : String) (hq : q ≠ "@context") :
    Object.andOp (.obj es) rhs
      = (.ok (.dictN (updKey es "@context" rhs)), .obj (updKey es "@context" rhs))
    ∧ lookupKey (updKey es "@context" rhs) "@context" = some rhs
    ∧ lookupKey (updKey es "@context" rhs) q = lookupKey es q :=
  ⟨rfl, lookupKey_updKey_self es "@context" rhs, lookupKey_updKey_ne es "@context" q rhs hq⟩

theorem claim5_context_registration_witness :
    ("a" : String) ≠ "@context"
    ∧ Object.andOp (.obj [("a", RawValue.int 1)]) (.obj [("g", RawValue.str "u")])
      = (.ok (.dictN [("a", RawValue.int 1), ("@context", .obj [("g", RawValue.str "u")])]),
         .obj [("a", RawValue.int 1), ("@context", .obj [("g", RawValue.str "u")])])
    ∧ lookupKey (updKey [("a", RawValue.int 1)] "@context" (.obj [("g", RawValue.str "u")])) "@context"
      = some (.obj [("g", RawValue.str "u")])
    ∧ lookupKey (updKey [("a", RawValue.int 1)] "@context" (.obj [("g", RawValue.str "u")])) "a"
      = lookupKey [("a", RawValue.int 1)] "a" := by
  have h := claim5_context_registration [("a", RawValue.int 1)] (.obj [("g", RawValue.str "u")])
    "a" (by decide)
  exact ⟨by decide, h.1, h.2.1, h.2.2⟩

/-- Claim C10: item assignment with a pointer-path key builds and applies
an add patch against the node's data; the method's return value is the
patched result, which assignment-statement semantics discard, and the
receiver's data after the call is exactly its data before it, whether the
patch succeeds or fails. -/
theorem claim10_setitem_no_mutation (self : RawValue) (path : String) (v : RawValue)
    (hp : pathIsPointer path = true) :
    (Object.setitem self path v).2 = self
    ∧ (Object.setitem self path v).1
      = (Object.add self (.mapping [(path, v)]) "add").1.map .patched := by
  constructor
  · simp [Object.setitem, hp]
  · simp [Object.setitem, hp]

theorem claim10_setitem_no_mutation_witness :
    pathIsPointer "/b" = true
    ∧ (Object.setitem (.obj [("a", RawValue.int 1)]) "/b" (RawValue.int 2)).2
      = .obj [("a", RawValue.int 1)]
    ∧ (Object.setitem (.obj [("a", RawValue.int 1)]) "/b" (RawValue.int 2)).1
      = (Object.add (.obj [("a", RawValue.int 1)]) (.mapping [("/b", RawValue.int 2)]) "add").1.map
          .patched := by
  have h := claim10_setitem_no_mutation (.obj [("a", RawValue.int 1)]) "/b" (RawValue.int 2) rfl
  exact ⟨rfl, h.1, h.2⟩

/-- Claim C4, counterexample: document context expansion does mutate the
receiver.  `Context.__matmul__` (src/jason.py line 273) runs
`object.update(...)` on the document operand, and `Object.__matmul__`
(line 142) passes the receiver's own data as that document, so after
expanding the mapping node with data (g maps to x) against the context
(g maps to u) the receiver's data has gained an `"@context"` entry.  The
mutation happens before the external expander is invoked, so any expander
exhibits it; the trivial one is used here. -/
theorem claim4_matmul_mutates_receiver :
    (Object.matmul trivialExpand (.obj [("g", RawValue.str "x")]) [("g", RawValue.str "u")]).2
      = .obj [("g", RawValue.str "x"), ("@context", .obj [("g", RawValue.str "u")])]
    ∧ (Object.matmul trivialExpand (.obj [("g", RawValue.str "x")]) [("g", RawValue.str "u")]).2
      ≠ .obj [("g", RawValue.str "x")] := by
  refine ⟨rfl, ?_⟩
  intro h
  rw [show (Object.matmul trivialExpand (.obj [("g", RawValue.str "x")]) [("g", RawValue.str "u")]).2
      = .obj [("g", RawValue.str "x"), ("@context", .obj [("g", RawValue.str "u")])] from rfl] at h
  simp at h

/-- Claim C4, amended: of the modelled core operations, all leave the
receiver's data unchanged except context registration and document context
expansion: the patch operators, item access, diff, compaction, schema
application and pointer-path item assignment are pure in the receiver,
while the matmul operation on a mapping receiver ends with the receiver's
data updated by an `"@context"` entry holding the context operand's own
`"@context"` value or, absent that, the whole context mapping. -/
theorem claim4_purity_amended
    (self rhs v : RawValue) (operand : AddOperand) (op : String) (key path : String)
    (es schema ctx ctxData : List (String × RawValue))
    (expandFn : RawValue → List RawValue) (diffFn : RawValue → RawValue → RawValue)
    (compactFn : RawValue → RawValue → List (String × RawValue))
    (validateFn : RawValue → RawValue → Except Err Unit)
    (hp : pathIsPointer path = true) (hctx : dictInit [] ctx = .ok ctxData) :
    (Object.add self operand op).2 = self
    ∧ (Object.getitem self key).2 = self
    ∧ (Object.orOp diffFn self rhs).2 = self
    ∧ (Object.modOp compactFn self ctx).2 = self
    ∧ (Object.callOp validateFn self schema).2 = self
    ∧ (Object.setitem self path v).2 = self
    ∧ (Object.matmul expandFn (.obj es) ctx).2
      = .obj (updKey es "@context" (contextValue ctxData)) := by
  refine ⟨rfl, rfl, rfl, rfl, rfl, ?_, ?_⟩
  · simp [Object.setitem, hp]
  · simp [Object.matmul, hctx]

theorem claim4_purity_amended_witness :
    pathIsPointer "/b" = true
    ∧ dictInit [] [("g", RawValue.str "u")] = .ok [("g", RawValue.str "u")]
    ∧ (Object.add (.obj [("a", RawValue.int 1)]) (.mapping [("/b", RawValue.int 2)]) "add").2
      = .obj [("a", RawValue.int 1)]
    ∧ (Object.getitem (.obj [("a", RawValue.int 1)]) "/a").2 = .obj [("a", RawValue.int 1)]
    ∧ (Object.orOp trivialDiff (.obj [("a", RawValue.int 1)]) (.arr [RawValue.int 1])).2
      = .obj [("a", RawValue.int 1)]
    ∧ (Object.modOp trivialCompact (.obj [("a", RawValue.int 1)]) [("g", RawValue.str "u")]).2
      = .obj [("a", RawValue.int 1)]
    ∧ (Object.callOp typeValidate (.obj [("a", RawValue.int 1)]) [("type", RawValue.str "string")]).2
      = .obj [("a", RawValue.int 1)]
    ∧ (Object.setitem (.obj [("a", RawValue.int 1)]) "/b" (RawValue.int 2)).2
      = .obj [("a", RawValue.int 1)]
    ∧ (Object.matmul trivialExpand (.obj [("g", RawValue.str "x")]) [("g", RawValue.str "u")]).2
      = .obj (updKey [("g", RawValue.str "x")] "@context"
          (contextValue [("g", RawValue.str "u")])) := by
  have h := claim4_purity_amended (.obj [("a", RawValue.int 1)]) (.arr [RawValue.int 1])
    (RawValue.int 2) (.mapping [("/b", RawValue.int 2)]) "add" "/a" "/b"
    [("g", RawValue.str "x")] [("type", RawValue.str "string")]
    [("g", RawValue.str "u")] [("g", RawValue.str "u")]
    trivialExpand trivialDiff trivialCompact typeValidate rfl rfl
  exact ⟨rfl, rfl, h.1, h.2.1, h.2.2.1, h.2.2.2.1, h.2.2.2.2.1, h.2.2.2.2.2.1, h.2.2.2.2.2.2⟩

theorem mapCtx_fst (q : Nat × HCell) (a : Nat) (rhs : HVal) :
    (if q.1 = a then (q.1, setCtxCell q.2 rhs) else q).1 = q.1 := by
  by_cases h : q.1 = a <;> simp [h]

theorem cellsFind_append (cells cells' : List (Nat × HCell)) (a : Nat) (pr : Nat × HCell)
    (hx : cells.find? (fun p => p.1 = a) = some pr) :
    (cells ++ cells').find? (fun p => p.1 = a) = some pr := by
  induction cells with
  | nil => simp [List.find?] at hx
  | cons q qs ih =>
      rw [List.cons_append]
      by_cases hq : q.1 = a
      · rw [List.find?_cons_of_pos _ (by simp [hq])] at hx ⊢
        exact hx
      · rw [List.find?_cons_of_neg _ (by simp [hq])] at hx ⊢
        exact ih hx

theorem cellsFind_append_none (cells cells' : List (Nat × HCell)) (a : Nat)
    (hx : cells.find? (fun p => p.1 = a) = none) :
    (cells ++ cells').find? (fun p => p.1 = a) = cells'.find? (fun p => p.1 = a) := by
  induction cells with
  | nil => simp
  | cons q qs ih =>
      rw [List.cons_append]
      by_cases hq : q.1 = a
      · rw [List.find?_cons_of_pos _ (by simp [hq])] at hx
        exact absurd hx (by simp)
      · rw [List.find?_cons_of_neg _ (by simp [hq])] at hx
        rw [List.find?_cons_of_neg _ (by simp [hq])]
        exact ih hx

theorem cellsFind_below_none (cells : List (Nat × HCell)) (n : Nat)
    (hwf : ∀ p ∈ cells, p.1 < n) :
    cells.find? (fun p => p.1 = n) = none := by
  induction cells with
  | nil => rfl
  | cons q qs ih =>
      have hq : q.1 ≠ n := Nat.ne_of_lt (hwf q (List.mem_cons_self q qs))
      rw [List.find?_cons_of_neg _ (by simp [hq])]
      exact ih (fun p hp => hwf p (List.mem_cons_of_mem q hp))

theorem cellsFind_map (cells : List (Nat × HCell)) (a b : Nat) (rhs : HVal) :
    (cells.map (fun p => if p.1 = a then (p.1, setCtxCell p.2 rhs) else p)).find?
        (fun p => p.1 = b)
      = (cells.find? (fun p => p.1 = b)).map
          (fun p => if p.1 = a then (p.1, setCtxCell p.2 rhs) else p) := by
  induction cells with
  | nil => rfl
  | cons q qs ih =>
      rw [List.map_cons]
      by_cases hq : q.1 = b
      · rw [List.find?_cons_of_pos _ (by rw [mapCtx_fst]; simp [hq]),
            List.find?_cons_of_pos _ (by simp [hq])]
        simp
      · rw [List.find?_cons_of_neg _ (by rw [mapCtx_fst]; simp [hq]),
            List.find?_cons_of_neg _ (by simp [hq])]
        exact ih

/-- Claim C6, counterexample: reconstructing a mapping container from its
own data does share mutable raw data with the original below the top
level.  In a heap where cell 1 is the mapping (a maps to the list in cell
0), the copy built by `type(D)(D.data)` is a fresh cell 2 whose entry
still references cell 0: the list at cell 0 is reachable from both the
original and the copy, against the claim's "shares no mutable raw data
with it at any depth". -/
theorem claim6_shallow_copy_shares :
    dictShallowCopy ⟨[(0, .hlist [.hint 1]), (1, .hdict [("a", .href 0)])], 2⟩ 1
      = .ok (2, ⟨[(0, .hlist [.hint 1]), (1, .hdict [("a", .href 0)]),
                  (2, .hdict [("a", .href 0)])], 3⟩)
    ∧ 0 ∈ reachAddrs 3
        ⟨[(0, .hlist [.hint 1]), (1, .hdict [("a", .href 0)]), (2, .hdict [("a", .href 0)])], 3⟩
        (.href 1)
    ∧ 0 ∈ reachAddrs 3
        ⟨[(0, .hlist [.hint 1]), (1, .hdict [("a", .href 0)]), (2, .hdict [("a", .href 0)])], 3⟩
        (.href 2)
    ∧ (2 : Nat) ≠ 1 := by
  refine ⟨rfl, ?_, ?_, by decide⟩
  · show 0 ∈ [1, 0]
    decide
  · show 0 ∈ [2, 0]
    decide

/-- Claim C6, amended: the copy is structurally equal to the original and
independently owned at the top level only — its fresh cell holds the very
same entry list (hence the same references below the top level) — and
mutating the copy through context registration rewrites only the copy's
own cell: every other cell, in particular the original's, is unchanged. -/
theorem claim6_copy_amended (h : Heap) (a b : Nat) (entries : List (String × HVal))
    (rhs : HVal)
    (hcell : cellAt h a = some (.hdict entries))
    (hwf : ∀ p ∈ h.cells, p.1 < h.next)
    (hb : b ≠ h.next) :
    dictShallowCopy h a = .ok (h.next, ⟨h.cells ++ [(h.next, .hdict entries)], h.next + 1⟩)
    ∧ cellAt ⟨h.cells ++ [(h.next, .hdict entries)], h.next + 1⟩ a = some (.hdict entries)
    ∧ cellAt ⟨h.cells ++ [(h.next, .hdict entries)], h.next + 1⟩ h.next = some (.hdict entries)
    ∧ cellAt (updateCtxH ⟨h.cells ++ [(h.next, .hdict entries)], h.next + 1⟩ h.next rhs) b
      = cellAt ⟨h.cells ++ [(h.next, .hdict entries)], h.next + 1⟩ b
    ∧ cellAt (updateCtxH ⟨h.cells ++ [(h.next, .hdict entries)], h.next + 1⟩ h.next rhs) h.next
      = some (.hdict (updKeyH entries "@context" rhs)) := by
  obtain ⟨pr, hpr, hprx⟩ := Option.map_eq_some'.mp hcell
  have hfind : (h.cells ++ [(h.next, HCell.hdict entries)]).find? (fun p => p.1 = a)
      = some pr := cellsFind_append _ _ _ _ hpr
  have hnone : h.cells.find? (fun p => p.1 = h.next) = none := cellsFind_below_none _ _ hwf
  have hfindN : (h.cells ++ [(h.next, HCell.hdict entries)]).find? (fun p => p.1 = h.next)
      = some (h.next, HCell.hdict entries) := by
    rw [cellsFind_append_none _ _ _ hnone]
    simp [List.find?]
  refine ⟨?_, ?_, ?_, ?_, ?_⟩
  · simp [dictShallowCopy, hcell, allocCell]
  · simp [cellAt, hfind, hprx]
  · simp [cellAt, hfindN]
  · unfold cellAt updateCtxH
    rw [cellsFind_map]
    cases hf : (h.cells ++ [(h.next, HCell.hdict entries)]).find? (fun p => p.1 = b) with
    | none => simp
    | some q =>
        have hq : q.1 = b := by
          have := List.find?_some hf
          simpa using this
        simp [hq, hb]
  · unfold cellAt updateCtxH
    rw [cellsFind_map, hfindN]
    simp [setCtxCell]

theorem claim6_copy_amended_witness :
    cellAt ⟨[(0, .hlist [.hint 1]), (1, .hdict [("a", .href 0)])], 2⟩ 1
      = some (.hdict [("a", .href 0)])
    ∧ (∀ p ∈ ([(0, HCell.hlist [.hint 1]), (1, HCell.hdict [("a", HVal.href 0)])] :
        List (Nat × HCell)), p.1 < 2)
    ∧ (1 : Nat) ≠ 2
    ∧ dictShallowCopy ⟨[(0, .hlist [.hint 1]), (1, .hdict [("a", .href 0)])], 2⟩ 1
      = .ok (2, ⟨[(0, .hlist [.hint 1]), (1, .hdict [("a", .href 0)]),
                  (2, .hdict [("a", .href 0)])], 3⟩)
    ∧ cellAt (updateCtxH ⟨[(0, .hlist [.hint 1]), (1, .hdict [("a", .href 0)]),
                  (2, .hdict [("a", .href 0)])], 3⟩ 2 (.hstr "u")) 1
      = cellAt ⟨[(0, .hlist [.hint 1]), (1, .hdict [("a", .href 0)]),
                  (2, .hdict [("a", .href 0)])], 3⟩ 1
    ∧ cellAt (updateCtxH ⟨[(0, .hlist [.hint 1]), (1, .hdict [("a", .href 0)]),
                  (2, .hdict [("a", .href 0)])], 3⟩ 2 (.hstr "u")) 2
      = some (.hdict [("a", .href 0), ("@context", .hstr "u")]) := by
  have h := claim6_copy_amended ⟨[(0, .hlist [.hint 1]), (1, .hdict [("a", .href 0)])], 2⟩
    1 1 [("a", .href 0)] (.hstr "u") rfl (by decide) (by decide)
  exact ⟨rfl, by decide, by decide, h.1, h.2.2.2.1, h.2.2.2.2⟩

theorem mem_updKey (es : List (String × RawValue)) (k : String) (v : RawValue)
    (kv : String × RawValue) (h : kv ∈ updKey es k v) :
    kv ∈ es ∨ kv = (k, v) := by
  induction es with
  | nil => simp [updKey] at h; simp [h]
  | cons q qs ih =>
      by_cases hq : q.1 = k
      · rw [show updKey (q :: qs) k v = (k, v) :: qs by
          obtain ⟨a, b⟩ := q; simp only [updKey]; simp_all] at h
        rcases List.mem_cons.mp h with h1 | h1
        · right; exact h1
        · left; exact List.mem_cons_of_mem _ h1
      · rw [show updKey (q :: qs) k v = q :: updKey qs k v by
          obtain ⟨a, b⟩ := q; simp only [updKey]; simp_all] at h
        rcases List.mem_cons.mp h with h1 | h1
        · left; simp [h1]
        · rcases ih h1 with h2 | h2
          · left; exact List.mem_cons_of_mem _ h2
          · right; exact h2

theorem updKey_keys (es : List (String × RawValue)) (k : String) (v : RawValue) :
    (updKey es k v).map Prod.fst
      = if k ∈ es.map Prod.fst then es.map Prod.fst else es.map Prod.fst ++ [k] := by
  induction es with
  | nil => simp [updKey]
  | cons q qs ih =>
      obtain ⟨a, b⟩ := q
      by_cases hq : a = k
      · simp [updKey, hq]
      · simp only [updKey, if_neg hq, List.map_cons, ih]
        by_cases hk : k ∈ qs.map Prod.fst
        · simp [hk, Ne.symm hq]
        · simp [hk, Ne.symm hq]

theorem updKey_not_mem (es : List (String × RawValue)) (k : String) (v : RawValue)
    (hk : k ∉ es.map Prod.fst) : updKey es k v = es ++ [(k, v)] := by
  induction es with
  | nil => simp [updKey]
  | cons q qs ih =>
      obtain ⟨a, b⟩ := q
      simp only [List.map_cons, List.mem_cons] at hk
      push_neg at hk
      simp only [updKey, if_neg (Ne.symm hk.1), List.cons_append]
      rw [ih hk.2]

theorem dictInit_keys_clean (es : List (String × RawValue)) :
    ∀ acc d : List (String × RawValue),
    (∀ kv ∈ acc, pathIsPointer kv.1 = false) →
    dictInit acc es = .ok d →
    ∀ kv ∈ d, pathIsPointer kv.1 = false := by
  induction es with
  | nil =>
      intro acc d hacc hd
      simp only [dictInit] at hd
      cases hd
      exact hacc
  | cons q qs ih =>
      intro acc d hacc hd
      obtain ⟨k, v⟩ := q
      by_cases hk : pathIsPointer k = true
      · simp only [dictInit] at hd
        rw [if_pos hk] at hd
        cases hap : applyPatch (.obj acc) [⟨"add", k, some v⟩] with
        | ok w => rw [hap] at hd; exact ih acc d hacc hd
        | error e => rw [hap] at hd; cases hd
      · simp only [dictInit] at hd
        rw [if_neg hk] at hd
        refine ih (updKey acc k v) d ?_ hd
        intro kv hkv
        rcases mem_updKey acc k v kv hkv with h1 | h1
        · exact hacc kv h1
        · rw [h1]
          exact Bool.not_eq_true _ ▸ hk

theorem dictInit_keys_nodup (es : List (String × RawValue)) :
    ∀ acc d : List (String × RawValue),
    (acc.map Prod.fst).Nodup →
    dictInit acc es = .ok d →
    (d.map Prod.fst).Nodup := by
  induction es with
  | nil =>
      intro acc d hacc hd
      simp only [dictInit] at hd
      cases hd
      exact hacc
  | cons q qs ih =>
      intro acc d hacc hd
      obtain ⟨k, v⟩ := q
      by_cases hk : pathIsPointer k = true
      · simp only [dictInit] at hd
        rw [if_pos hk] at hd
        cases hap : applyPatch (.obj acc) [⟨"add", k, some v⟩] with
        | ok w => rw [hap] at hd; exact ih acc d hacc hd
        | error e => rw [hap] at hd; cases hd
      · simp only [dictInit] at hd
        rw [if_neg hk] at hd
        refine ih (updKey acc k v) d ?_ hd
        rw [updKey_keys]
        by_cases hm : k ∈ acc.map Prod.fst
        · simp [hm, hacc]
        · simp [hm, List.nodup_append, hacc]

theorem dictInit_clean_id (es : List (String × RawValue)) :
    ∀ acc : List (String × RawValue),
    (∀ kv ∈ es, pathIsPointer kv.1 = false) →
    ((es.map Prod.fst).Nodup) →
    (∀ k ∈ es.map Prod.fst, k ∉ acc.map Prod.fst) →
    dictInit acc es = .ok (acc ++ es) := by
  induction es with
  | nil => intro acc _ _ _; simp [dictInit]
  | cons q qs ih =>
      intro acc hclean hnodup hdis
      obtain ⟨k, v⟩ := q
      have hk : pathIsPointer k = false := hclean (k, v) (List.mem_cons_self _ _)
      simp only [dictInit, hk, if_false]
      rw [if_neg (by simp [hk])]
      have hkacc : k ∉ acc.map Prod.fst := hdis k (by simp)
      rw [updKey_not_mem acc k v hkacc]
      have hnodup' : (qs.map Prod.fst).Nodup := by
        simp only [List.map_cons, List.nodup_cons] at hnodup
        exact hnodup.2
      have hknotqs : k ∉ qs.map Prod.fst := by
        simp only [List.map_cons, List.nodup_cons] at hnodup
        exact hnodup.1
      have hstep := ih (acc ++ [(k, v)])
        (fun kv hkv => hclean kv (List.mem_cons_of_mem _ hkv)) hnodup'
        (by
          intro q hq
          rw [List.map_append, List.mem_append]
          push_neg
          constructor
          · exact hdis q (by simp [hq])
          · simp only [List.map_cons, List.map_nil, List.mem_singleton]
            intro hqk
            exact hknotqs (hqk ▸ hq))
      rw [hstep]
      simp

/-- Claim C7, counterexample: dispatch is not even total on raw values.
Mapping-node construction routes every slash-prefixed top-level key
through a patch application against the data built so far
(`Object.__setitem__`, src/jason.py lines 150-153, reached from the
UserDict constructor), so dispatching the mapping whose only key is the
pointer /a/b raises a pointer failure — there is no resulting node whose
data could be re-dispatched, against the claim's "for every RawValue". -/
theorem claim7_dispatch_can_fail :
    jayLoad (.obj [("/a/b", RawValue.int 1)]) = .error .pointerErr := rfl

/-- Claim C7, amended: on every raw value that dispatch does accept,
re-dispatch of the resulting node's data yields that very node again —
dispatch is idempotent on content wherever it is defined. -/
theorem claim7_redispatch_idempotent (v : RawValue) (n : Node) (h : jayLoad v = .ok n) :
    jayLoad n.data = .ok n := by
  cases v with
  | obj es =>
      simp only [jayLoad] at h
      cases hd : dictInit [] es with
      | error e => rw [hd] at h; cases h
      | ok d =>
          rw [hd] at h
          cases h
          have hclean := dictInit_keys_clean es [] d (by simp) hd
          have hnodup := dictInit_keys_nodup es [] d (by simp) hd
          have hid := dictInit_clean_id d [] hclean hnodup (by simp)
          simp only [Node.data, jayLoad, hid]
          rfl
  | arr xs => cases h; rfl
  | str s => cases h; rfl
  | int i => cases h; rfl
  | bool b => cases h; rfl
  | null => cases h; rfl

theorem claim7_redispatch_idempotent_witness :
    jayLoad (.obj [("a", RawValue.int 1)]) = .ok (.dictN [("a", RawValue.int 1)])
    ∧ jayLoad (Node.dictN [("a", RawValue.int 1)]).data
      = .ok (.dictN [("a", RawValue.int 1)]) :=
  ⟨rfl, claim7_redispatch_idempotent (.obj [("a", RawValue.int 1)]) _ rfl⟩

/-- Claim C8: schema application first builds the Schema node, then asks
the external validator and returns the receiver's data unchanged when the
validator accepts, while a rejection propagates uncaught and undowngraded
— the whole call is the validator's verdict mapped to an identity
pass-through, and the receiver is not mutated. -/
theorem claim8_schema_passthrough
    (validateFn : RawValue → RawValue → Except Err Unit)
    (self : RawValue) (schema sd : List (String × RawValue))
    (hsd : dictInit [] schema = .ok sd) :
    Object.callOp validateFn self schema
      = ((validateFn self (.obj sd)).map (fun _ => self), self) := by
  simp [Object.callOp, hsd, Except.bind]

theorem claim8_schema_passthrough_witness :
    dictInit [] [("type", RawValue.str "string")] = .ok [("type", RawValue.str "string")]
    ∧ Object.callOp typeValidate (.str "asdf") [("type", RawValue.str "string")]
      = (.ok (.str "asdf"), .str "asdf")
    ∧ Object.callOp typeValidate (.int 1) [("type", RawValue.str "string")]
      = (.error .schemaErr, .int 1) :=
  ⟨rfl,
   (claim8_schema_passthrough typeValidate (.str "asdf")
      [("type", RawValue.str "string")] [("type", RawValue.str "string")] rfl).trans rfl,
   (claim8_schema_passthrough typeValidate (.int 1)
      [("type", RawValue.str "string")] [("type", RawValue.str "string")] rfl).trans rfl⟩

theorem unescPass1_cons_ne (c : Char) (t : List Char) (hc : c ≠ '~') :
    unescPass1 (c :: t) = c :: unescPass1 t := by
  cases t with
  | nil => rfl
  | cons d rest => simp [unescPass1, hc]

theorem unescPass2_cons_ne (c : Char) (t : List Char) (hc : c ≠ '~') :
    unescPass2 (c :: t) = c :: unescPass2 t := by
  cases t with
  | nil => rfl
  | cons d rest => simp [unescPass2, hc]


theorem pass1_esc (cs : List Char) : unescPass1 (escChars cs) = escTilde cs := by
  induction cs with
  | nil => rfl
  | cons c rest ih =>
      by_cases hc : c = '~'
      · subst hc
        rw [show escChars ('~' :: rest) = '~' :: '0' :: escChars rest by simp [escChars]]
        rw [show unescPass1 ('~' :: '0' :: escChars rest)
            = '~' :: unescPass1 ('0' :: escChars rest) by simp [unescPass1]]
        rw [unescPass1_cons_ne '0' _ (by decide), ih]
        simp [escTilde]
      · by_cases hs : c = '/'
        · subst hs
          rw [show escChars ('/' :: rest) = '~' :: '1' :: escChars rest by simp [escChars]]
          rw [show unescPass1 ('~' :: '1' :: escChars rest)
              = '/' :: unescPass1 (escChars rest) by simp [unescPass1]]
          rw [ih]
          simp [escTilde]
        · rw [show escChars (c :: rest) = c :: escChars rest by simp [escChars, hc, hs]]
          rw [unescPass1_cons_ne c _ hc, ih]
          simp [escTilde, hc]

theorem pass2_escTilde (cs : List Char) : unescPass2 (escTilde cs) = cs := by
  induction cs with
  | nil => rfl
  | cons c rest ih =>
      by_cases hc : c = '~'
      · subst hc
        rw [show escTilde ('~' :: rest) = '~' :: '0' :: escTilde rest by simp [escTilde]]
        rw [show unescPass2 ('~' :: '0' :: escTilde rest)
            = '~' :: unescPass2 (escTilde rest) by simp [unescPass2]]
        rw [ih]
      · rw [show escTilde (c :: rest) = c :: escTilde rest by simp [escTilde, hc]]
        rw [unescPass2_cons_ne c _ hc, ih]

theorem unesc_esc (cs : List Char) : unescChars (escChars cs) = cs := by
  unfold unescChars
  rw [pass1_esc, pass2_escTilde]

theorem escChars_no_slash (cs : List Char) : '/' ∉ escChars cs := by
  induction cs with
  | nil => simp [escChars]
  | cons c rest ih =>
      by_cases hc : c = '~'
      · simp [escChars, hc, ih]
      · by_cases hs : c = '/'
        · simp [escChars, hc, hs, ih]
        · simp only [escChars, if_neg hc, if_neg hs, List.mem_cons]
          push_neg
          exact ⟨fun h => hs h.symm, ih⟩

theorem splitSlash_cons_slash (rest : List Char) :
    splitSlash ('/' :: rest) = [] :: splitSlash rest := by
  simp [splitSlash]

theorem splitSlash_cons_ne (c : Char) (rest : List Char) (hc : c ≠ '/') :
    splitSlash (c :: rest)
      = match splitSlash rest with
        | part :: parts => (c :: part) :: parts
        | [] => [[c]] := by
  simp only [splitSlash]
  rw [if_neg hc]

theorem splitSlash_noslash_append (pre : List Char) (cs part : List Char)
    (parts : List (List Char)) (hpre : '/' ∉ pre) (h : splitSlash cs = part :: parts) :
    splitSlash (pre ++ cs) = (pre ++ part) :: parts := by
  induction pre with
  | nil => simpa using h
  | cons c pcs ih =>
      have hc : c ≠ '/' := fun hh => hpre (by simp [hh])
      have hpre' : '/' ∉ pcs := fun hh => hpre (by simp [hh])
      rw [List.cons_append, splitSlash_cons_ne c _ hc, ih hpre']
      rfl

theorem splitSlash_noslash (cs : List Char) (h : '/' ∉ cs) : splitSlash cs = [cs] := by
  have h2 := splitSlash_noslash_append cs [] [] [] h rfl
  simpa using h2

theorem splitSlash_toPointer (ss : List String) : ∀ s : String,
    splitSlash (((s :: ss).map (fun t => '/' :: escChars t.data)).flatten)
      = [] :: (s :: ss).map (fun t => escChars t.data) := by
  induction ss with
  | nil =>
      intro s
      simp only [List.map_cons, List.map_nil, List.flatten_cons, List.flatten_nil,
        List.append_nil]
      rw [splitSlash_cons_slash, splitSlash_noslash _ (escChars_no_slash s.data)]
  | cons s2 ss2 ih =>
      intro s
      rw [show (((s :: s2 :: ss2).map (fun t => '/' :: escChars t.data)).flatten : List Char)
          = '/' :: (escChars s.data ++ ((s2 :: ss2).map (fun t => '/' :: escChars t.data)).flatten)
          from by simp]
      rw [splitSlash_cons_slash]
      rw [splitSlash_noslash_append (escChars s.data) _ _ _ (escChars_no_slash s.data) (ih s2)]
      simp

theorem parsePointer_toPointer (segs : List String) (hne : segs ≠ []) :
    parsePointer (toPointer segs) = .ok segs := by
  cases segs with
  | nil => exact absurd rfl hne
  | cons s ss =>
      unfold parsePointer toPointer
      rw [show (String.mk (((s :: ss).map (fun t => '/' :: escChars t.data)).flatten)).data
          = ((s :: ss).map (fun t => '/' :: escChars t.data)).flatten from rfl]
      rw [splitSlash_toPointer ss s]
      show Except.ok (((s :: ss).map (fun t => escChars t.data)).map
          (fun cs => String.mk (unescChars cs))) = Except.ok (s :: ss)
      rw [List.map_map]
      have hcomp : ((fun cs => String.mk (unescChars cs)) ∘ (fun t : String => escChars t.data))
          = fun t : String => t := by
        funext t
        simp only [Function.comp]
        rw [unesc_esc]
      rw [hcomp]
      simp

theorem walkStep_subAt (doc v : RawValue) (k : String) (rest : List String)
    (h : subAt doc (k :: rest) = some v) :
    ∃ w, walkStep doc k = .ok w ∧ subAt w rest = some v := by
  cases doc with
  | obj es =>
      simp only [subAt] at h
      cases hl : lookupKey es k with
      | none => rw [hl] at h; cases h
      | some w =>
          rw [hl] at h
          exact ⟨w, by simp [walkStep, hl], h⟩
  | arr xs =>
      simp only [subAt] at h
      by_cases hdash : k = "-"
      · rw [if_pos hdash] at h; cases h
      · rw [if_neg hdash] at h
        cases hpi : parseIndex k.data with
        | none => rw [hpi] at h; cases h
        | some i =>
            simp only [hpi] at h
            by_cases hi : i < xs.length
            · rw [dif_pos hi] at h
              exact ⟨xs.get ⟨i, hi⟩,
                by simp only [walkStep, hpi]; rw [if_neg hdash, dif_pos hi], h⟩
            · rw [dif_neg hi] at h; cases h
  | str s =>
      simp only [subAt] at h
      by_cases hdash : k = "-"
      · rw [if_pos hdash] at h; cases h
      · rw [if_neg hdash] at h
        cases hpi : parseIndex k.data with
        | none => rw [hpi] at h; cases h
        | some i =>
            simp only [hpi] at h
            by_cases hi : i < s.data.length
            · rw [dif_pos hi] at h
              exact ⟨.str (String.mk [s.data.get ⟨i, hi⟩]),
                by simp only [walkStep, hpi]; rw [if_neg hdash, dif_pos hi], h⟩
            · rw [dif_neg hi] at h; cases h
  | int i => simp [subAt] at h
  | bool b => simp [subAt] at h
  | null => simp [subAt] at h

theorem foldlM_walk_subAt (segs : List String) : ∀ doc v : RawValue,
    subAt doc segs = some v →
    List.foldlM walkStep doc segs = .ok v := by
  induction segs with
  | nil =>
      intro doc v h
      simp only [subAt, Option.some.injEq] at h
      subst h
      rfl
  | cons k rest ih =>
      intro doc v h
      obtain ⟨w, hw, hsub⟩ := walkStep_subAt doc v k rest h
      rw [List.foldlM_cons, hw]
      show List.foldlM walkStep w rest = Except.ok v
      exact ih w v hsub

/-- Claim C9, counterexample: pointer access can fail on a valid pointer
obtained by walking the container's own structure, because the resolved
sub-value is re-dispatched and mapping-node construction routes
slash-prefixed keys of the sub-value through a patch application.  For the
container whose data maps key a to the mapping with the single key /x/y,
the path consisting of the segment a is a valid walk, pointer resolution
itself succeeds, and yet item access raises a pointer failure during the
re-dispatch of the resolved mapping. -/
theorem claim9_getitem_redispatch_fails :
    subAt (.obj [("a", RawValue.obj [("/x/y", RawValue.int 1)])]) ["a"]
      = some (.obj [("/x/y", RawValue.int 1)])
    ∧ resolvePointer (.obj [("a", RawValue.obj [("/x/y", RawValue.int 1)])]) "/a"
      = .ok (.obj [("/x/y", RawValue.int 1)])
    ∧ (Object.getitem (.obj [("a", RawValue.obj [("/x/y", RawValue.int 1)])]) "/a").1
      = .error .pointerErr :=
  ⟨rfl, rfl, rfl⟩

/-- Claim C9, amended: for every container and every valid pointer
obtained by walking the container's own structure, pointer resolution
succeeds and yields exactly the sub-value at that path; and whenever the
Dispatch Facade accepts that sub-value, item access returns it dispatched
as a node (a plain scalar stays a passthrough value), never as a bare
unwrapped container. -/
theorem claim9_pointer_roundtrip_amended (data v : RawValue) (segs : List String) (n : Node)
    (hne : segs ≠ []) (hsub : subAt data segs = some v) (hn : jayLoad v = .ok n) :
    resolvePointer data (toPointer segs) = .ok v
    ∧ (Object.getitem data (toPointer segs)).1 = .ok (.dispatched n) := by
  have hres : resolvePointer data (toPointer segs) = .ok v := by
    unfold resolvePointer
    rw [parsePointer_toPointer segs hne]
    show List.foldlM walkStep data segs = Except.ok v
    exact foldlM_walk_subAt segs data v hsub
  refine ⟨hres, ?_⟩
  have hp : pathIsPointer (toPointer segs) = true := by
    cases segs with
    | nil => exact absurd rfl hne
    | cons s ss => rfl
  simp only [Object.getitem, hp, if_true]
  rw [hres]
  show (jayLoad v).map GetItemResult.dispatched = Except.ok (GetItemResult.dispatched n)
  rw [hn]
  rfl

theorem claim9_pointer_roundtrip_amended_witness :
    (["a", "1"] : List String) ≠ []
    ∧ subAt (.obj [("a", RawValue.arr [.int 1, .int 2])]) ["a", "1"] = some (.int 2)
    ∧ jayLoad (RawValue.int 2) = .ok (.plain (.int 2))
    ∧ resolvePointer (.obj [("a", RawValue.arr [.int 1, .int 2])]) (toPointer ["a", "1"])
      = .ok (.int 2)
    ∧ (Object.getitem (.obj [("a", RawValue.arr [.int 1, .int 2])]) (toPointer ["a", "1"])).1
      = .ok (.dispatched (.plain (.int 2))) := by
  have h := claim9_pointer_roundtrip_amended (.obj [("a", RawValue.arr [.int 1, .int 2])])
    (.int 2) ["a", "1"] (.plain (.int 2)) (by simp) rfl rfl
  exact ⟨by simp, rfl, rfl, h.1, h.2⟩
